import Mathlib

/-!
Verification of the route-topology reconstruction core
(`topology.py`, `geo_math.py`) of the arknet fleet manager.

Coordinates are modelled as exact rationals (every finite IEEE double is a
rational, and the ordering of finite doubles coincides with the rational
ordering).  Python `set` iteration order is incidental; wherever the source
iterates over a set, the embedding takes the enumeration as an explicit list
argument, so theorems quantifying over those lists cover every possible
iteration order.  The geodesic edge weight is an explicit function argument
`dist`; the actual haversine weight (analysed separately over the reals at
the end of this file) is one instance.
-/

namespace Arknet

/-- A graph node: an exact (longitude, latitude) pair, as in `topology.py`. -/
abbrev Node : Type := ℚ × ℚ

/-- One input polyline segment: an ordered list of nodes. -/
abbrev Segment : Type := List Node

/-- The adjacency structure `Dict[LonLat, Set[LonLat]]` of `topology.py`,
as an association list in key-insertion order; each value list is the
neighbour set (duplicate-free, in insertion order). -/
abbrev Graph : Type := List (Node × List Node)

/-- `graph.get(a, ())`: the neighbour list of `a`, `[]` when absent. -/
def getNbrs (g : Graph) (a : Node) : List Node :=
  match g with
  | [] => []
  | (k, l) :: rest => if k = a then l else getNbrs rest a

/-- `graph.setdefault(a, set()).add(b)`: add `b` to the neighbour set of `a`,
creating the key at the end of the dict if absent. -/
def addNbr (g : Graph) (a b : Node) : Graph :=
  match g with
  | [] => [(a, [b])]
  | (k, l) :: rest =>
      if k = a then (k, if b ∈ l then l else l ++ [b]) :: rest
      else (k, l) :: addNbr rest a b

/-- `nodes.add(x)` on the accumulated node set (kept as a duplicate-free list). -/
def insertNode (ns : List Node) (x : Node) : List Node :=
  if x ∈ ns then ns else ns ++ [x]

/-- One iteration of the inner loop of `build_graph`:
`nodes.update((a, b)); graph.setdefault(a, set()).add(b);
graph.setdefault(b, set()).add(a)`. -/
def addPair (st : Graph × List Node) (a b : Node) : Graph × List Node :=
  (addNbr (addNbr st.1 a b) b a, insertNode (insertNode st.2 a) b)

/-- The loop `for i in range(len(seg) - 1)` over one segment, processing the
consecutive pairs in order. -/
def addSeg (st : Graph × List Node) : Segment → Graph × List Node
  | a :: b :: rest => addSeg (addPair st a b) (b :: rest)
  | _ => st

/-- `RouteTopology.build_graph`: fold all segments into the adjacency
structure and the node set. -/
def build_graph (segments : List Segment) : Graph × List Node :=
  segments.foldl addSeg ([], [])

/-- All nodes mentioned by the adjacency structure (keys and neighbours);
used only to bound the traversals' searches. -/
def gNodes (g : Graph) : List Node :=
  g.flatMap (fun p => p.1 :: p.2)

theorem getNbrs_subset_gNodes {g : Graph} {a b : Node} (h : b ∈ getNbrs g a) :
    b ∈ gNodes g := by
  induction g with
  | nil => simp [getNbrs] at h
  | cons p rest ih =>
      obtain ⟨k, l⟩ := p
      simp only [getNbrs] at h
      simp only [gNodes, List.flatMap_cons] at ih ⊢
      by_cases hk : k = a
      · rw [if_pos hk] at h
        exact List.mem_append_left _ (List.mem_cons_of_mem _ h)
      · rw [if_neg hk] at h
        exact List.mem_append_right _ (ih h)

theorem lexHelp {a a' b b' : ℕ} (h1 : a' ≤ a) (h2 : b' < b) :
    Prod.Lex (· < ·) (· < ·) (a', b') (a, b) := by
  rcases lt_or_eq_of_le h1 with h | h
  · exact Prod.Lex.left _ _ h
  · subst h; exact Prod.Lex.right _ h2

theorem cardSdiffLt {α : Type} [DecidableEq α] {A B s t : Finset α} {c : α}
    (hA : B ⊆ A) (hs : s ⊆ t) (hcA : c ∈ A) (hcs : c ∉ s) (hct : c ∈ t) :
    (B \ t).card < (A \ s).card := by
  apply Finset.card_lt_card
  constructor
  · intro x hx
    simp only [Finset.mem_sdiff] at hx ⊢
    exact ⟨hA hx.1, fun hxs => hx.2 (hs hxs)⟩
  · intro hsub
    have hc : c ∈ A \ s := Finset.mem_sdiff.mpr ⟨hcA, hcs⟩
    have := hsub hc
    simp only [Finset.mem_sdiff] at this
    exact this.2 hct

/-- The `while stack:` loop inside `largest_component`: pop from the stack,
skip seen nodes, otherwise mark seen, append to the component and push the
unseen neighbours.  The Lean stack keeps its top at the head; Python pushes
the neighbours in order and pops from the end, hence the `reverse`. -/
def dfsLoop (g : Graph) (stack seen comp : List Node) : List Node × List Node :=
  match stack with
  | [] => (seen, comp)
  | cur :: rest =>
      if cur ∈ seen then dfsLoop g rest seen comp
      else
        dfsLoop g
          ((((getNbrs g cur).filter (fun n => decide (n ∉ seen ++ [cur]))).reverse) ++ rest)
          (seen ++ [cur]) (comp ++ [cur])
termination_by
  ((((gNodes g).toFinset ∪ stack.toFinset) \ seen.toFinset).card, stack.length)
decreasing_by
  · apply lexHelp
    · apply Finset.card_le_card
      intro x hx
      simp only [Finset.mem_sdiff, Finset.mem_union, List.toFinset_cons,
        Finset.mem_insert, List.mem_toFinset] at hx ⊢
      exact ⟨hx.1.imp id Or.inr, hx.2⟩
    · simp
  · apply Prod.Lex.left
    apply cardSdiffLt (c := cur)
    · intro x hx
      simp only [Finset.mem_union, List.mem_toFinset, List.mem_append,
        List.mem_reverse, List.mem_filter, List.mem_cons] at hx ⊢
      rcases hx with hx | hx
      · exact Or.inl hx
      · rcases hx with hx | hx
        · exact Or.inl (getNbrs_subset_gNodes hx.1)
        · exact Or.inr (by simp [hx])
    · intro x hx
      simp only [List.mem_toFinset, List.mem_append, List.mem_singleton] at hx ⊢
      exact Or.inl hx
    · simp
    · simpa using ‹cur ∉ seen›
    · simp

/-- The `for node in nodes:` loop of `largest_component`, with the set's
iteration order made explicit as the list argument; accumulates the found
components in discovery order. -/
def compLoop (g : Graph) : List Node → List Node → List (List Node) → List (List Node)
  | [], _, acc => acc
  | node :: rest, seen, acc =>
      if node ∈ seen then compLoop g rest seen acc
      else
        let r := dfsLoop g [node] seen []
        compLoop g rest r.1 (acc ++ [r.2])

/-- `components.sort(key=len, reverse=True)`: stable sort by length,
descending. -/
def sortComps (cs : List (List Node)) : List (List Node) :=
  cs.mergeSort (fun a b => decide (b.length ≤ a.length))

/-- `RouteTopology.largest_component`, with the iteration order of the node
set passed explicitly as `nodesEnum`.  Returns the chosen component in
discovery order (as a list; the Python function returns it as a set). -/
def largest_component (nodesEnum : List Node) (g : Graph) : List Node :=
  match sortComps (compLoop g nodesEnum [] []) with
  | [] => []
  | c :: _ => c

/-- The per-node record of `_bfs_longest_path`'s `visited` dict together
with the queue and the running farthest/maxdist/maxpath accumulators. -/
structure BfsState where
  visited : List (Node × (ℚ × List Node))
  q : List Node
  farthest : Node
  maxdist : ℚ
  maxpath : List Node

/-- The keys of the `visited` dict. -/
def visKeys (s : BfsState) : List Node := s.visited.map Prod.fst

/-- `visited[cur]` lookup. -/
def lookupV (v : List (Node × (ℚ × List Node))) (x : Node) : Option (ℚ × List Node) :=
  match v with
  | [] => none
  | (k, e) :: rest => if k = x then some e else lookupV rest x

/-- The body of `for nxt in graph.get(cur, ()):` in `_bfs_longest_path`:
skip visited neighbours, otherwise record distance and path, update the
running maximum, and enqueue. -/
def visitNbr (dist : Node → Node → ℚ) (cur : Node) (d0 : ℚ) (p0 : List Node)
    (s : BfsState) (nxt : Node) : BfsState :=
  if nxt ∈ visKeys s then s
  else
    let ndist := d0 + dist cur nxt
    let npath := p0 ++ [nxt]
    if ndist > s.maxdist then
      { visited := s.visited ++ [(nxt, (ndist, npath))], q := s.q ++ [nxt],
        farthest := nxt, maxdist := ndist, maxpath := npath }
    else
      { s with visited := s.visited ++ [(nxt, (ndist, npath))], q := s.q ++ [nxt] }

/-- The neighbour loop of `_bfs_longest_path`, folded left over the
neighbour list. -/
def visitFold (dist : Node → Node → ℚ) (cur : Node) (d0 : ℚ) (p0 : List Node)
    (s : BfsState) : List Node → BfsState
  | [] => s
  | nxt :: ns => visitFold dist cur d0 p0 (visitNbr dist cur d0 p0 s nxt) ns

theorem visitFold_spec (dist : Node → Node → ℚ) (cur : Node) (d0 : ℚ) (p0 : List Node) :
    ∀ (ns : List Node) (s : BfsState), ∃ new : List (Node × (ℚ × List Node)),
      (visitFold dist cur d0 p0 s ns).visited = s.visited ++ new ∧
      (visitFold dist cur d0 p0 s ns).q = s.q ++ new.map Prod.fst ∧
      (∀ e ∈ new, e.1 ∈ ns ∧ e.1 ∉ visKeys s) := by
  intro ns
  induction ns with
  | nil => intro s; exact ⟨[], by simp [visitFold], by simp [visitFold], by simp⟩
  | cons nxt rest ih =>
      intro s
      by_cases hv : nxt ∈ visKeys s
      · have hstep : visitNbr dist cur d0 p0 s nxt = s := by simp [visitNbr, hv]
        obtain ⟨new, h1, h2, h3⟩ := ih s
        refine ⟨new, ?_, ?_, ?_⟩
        · simp only [visitFold, hstep]; exact h1
        · simp only [visitFold, hstep]; exact h2
        · exact fun e he => ⟨List.mem_cons_of_mem _ (h3 e he).1, (h3 e he).2⟩
      · have hvis : (visitNbr dist cur d0 p0 s nxt).visited
            = s.visited ++ [(nxt, (d0 + dist cur nxt, p0 ++ [nxt]))] := by
          simp only [visitNbr, if_neg hv]
          by_cases hmax : d0 + dist cur nxt > s.maxdist <;> simp [hmax]
        have hqq : (visitNbr dist cur d0 p0 s nxt).q = s.q ++ [nxt] := by
          simp only [visitNbr, if_neg hv]
          by_cases hmax : d0 + dist cur nxt > s.maxdist <;> simp [hmax]
        have hkeys : visKeys (visitNbr dist cur d0 p0 s nxt)
            = visKeys s ++ [nxt] := by
          simp [visKeys, hvis]
        obtain ⟨new, h1, h2, h3⟩ := ih (visitNbr dist cur d0 p0 s nxt)
        refine ⟨(nxt, (d0 + dist cur nxt, p0 ++ [nxt])) :: new, ?_, ?_, ?_⟩
        · simp only [visitFold]; rw [h1, hvis]; simp
        · simp only [visitFold]; rw [h2, hqq]; simp
        · intro e he
          rcases List.mem_cons.mp he with he | he
          · subst he; exact ⟨List.mem_cons_self _ _, hv⟩
          · refine ⟨List.mem_cons_of_mem _ (h3 e he).1, ?_⟩
            have h4 := (h3 e he).2
            rw [hkeys] at h4
            intro hc; exact h4 (List.mem_append_left _ hc)

/-- The `while q:` loop of `_bfs_longest_path`. -/
def bfsLoop (dist : Node → Node → ℚ) (g : Graph) (s : BfsState) : BfsState :=
  match hq : s.q with
  | [] => s
  | cur :: rest =>
      let dp := (lookupV s.visited cur).getD (0, [])
      bfsLoop dist g (visitFold dist cur dp.1 dp.2 { s with q := rest } (getNbrs g cur))
termination_by
  ((((gNodes g).toFinset ∪ s.q.toFinset) \ (visKeys s).toFinset).card, s.q.length)
decreasing_by
  obtain ⟨new, h1, h2, h3⟩ :=
    visitFold_spec dist cur ((lookupV s.visited cur).getD (0, [])).1
      ((lookupV s.visited cur).getD (0, [])).2 (getNbrs g cur) { s with q := rest }
  have hkt : visKeys (visitFold dist cur ((lookupV s.visited cur).getD (0, [])).1
      ((lookupV s.visited cur).getD (0, [])).2 { s with q := rest } (getNbrs g cur))
      = visKeys s ++ new.map Prod.fst := by
    simp only [visKeys, h1]; simp [visKeys]
  have hq2 : (visitFold dist cur ((lookupV s.visited cur).getD (0, [])).1
      ((lookupV s.visited cur).getD (0, [])).2 { s with q := rest } (getNbrs g cur)).q
      = rest ++ new.map Prod.fst := h2
  have h3' : ∀ e ∈ new, e.1 ∈ getNbrs g cur ∧ e.1 ∉ visKeys s := h3
  simp only [hkt, hq2]
  cases new with
  | nil =>
      apply lexHelp
      · apply Finset.card_le_card
        apply Finset.sdiff_subset_sdiff
        · apply Finset.union_subset_union_right
          intro x hx
          simp only [List.mem_toFinset, List.map_nil, List.append_nil] at hx ⊢
          rw [hq]; exact List.mem_cons_of_mem _ hx
        · simp
      · simp [hq]
  | cons e es =>
      apply Prod.Lex.left
      have he := h3' e (List.mem_cons_self _ _)
      apply cardSdiffLt (c := e.1)
      · intro x hx
        simp only [Finset.mem_union, List.mem_toFinset] at hx ⊢
        rcases hx with hx | hx
        · exact Or.inl hx
        · rcases List.mem_append.mp hx with hx | hx
          · rw [hq]; exact Or.inr (List.mem_cons_of_mem _ hx)
          · obtain ⟨ee, hee, heq⟩ := List.mem_map.mp hx
            exact Or.inl (getNbrs_subset_gNodes (heq ▸ (h3' ee hee).1))
      · intro x hx
        simp only [List.mem_toFinset] at hx ⊢
        exact List.mem_append_left _ hx
      · exact Finset.mem_union_left _ (List.mem_toFinset.mpr (getNbrs_subset_gNodes he.1))
      · simpa using he.2
      · simp only [List.mem_toFinset]
        exact List.mem_append_right _ (List.mem_map.mpr ⟨e, List.mem_cons_self _ _, rfl⟩)

/-- `RouteTopology._bfs_longest_path`: run the weighted breadth-first sweep
from `start` and return the farthest node, its distance and its path. -/
def bfs_longest_path (dist : Node → Node → ℚ) (g : Graph) (start : Node) :
    Node × ℚ × List Node :=
  let s := bfsLoop dist g ⟨[(start, (0, [start]))], [start], start, 0, [start]⟩
  (s.farthest, s.maxdist, s.maxpath)

/-- `RouteTopology.longest_path`, with the iteration order of the component
set made explicit: `next(iter(comp_nodes))` is the head of `compEnum`. -/
def longest_path (dist : Node → Node → ℚ) (g : Graph) (compEnum : List Node) :
    List Node :=
  match compEnum with
  | [] => []
  | start :: _ =>
      let a := (bfs_longest_path dist g start).1
      (bfs_longest_path dist g a).2.2

/-- `RouteTopology.build_ordered_route`, with the iteration order of the
node set passed explicitly (the chosen component is then traversed in its
discovery order). -/
def build_ordered_route_ord (dist : Node → Node → ℚ) (nodesEnum : List Node)
    (segments : List Segment) : List Node :=
  let gp := build_graph segments
  longest_path dist gp.1 (largest_component nodesEnum gp.1)

/-- `RouteTopology.build_ordered_route` under one particular (insertion-order)
enumeration of the node set. -/
def build_ordered_route (dist : Node → Node → ℚ) (segments : List Segment) :
    List Node :=
  build_ordered_route_ord dist (build_graph segments).2 segments

/-- `RouteTopology.termini`. -/
def termini (ordered_route : List Node) : Node × Node :=
  match ordered_route with
  | [] => ((0, 0), (0, 0))
  | a :: rest => (a, List.getLastD rest a)

/-! ### Lemmas about the graph builder -/

/-- `(a, b)` occur as consecutive points `(p_i, p_{i+1})` of the segment. -/
def adjIn (seg : Segment) (a b : Node) : Prop :=
  ∃ i : ℕ, seg[i]? = some a ∧ seg[i + 1]? = some b

theorem adjIn_nil (a b : Node) : ¬ adjIn [] a b := by
  rintro ⟨i, h, -⟩; simp at h

theorem adjIn_single (p a b : Node) : ¬ adjIn [p] a b := by
  rintro ⟨i, h1, h2⟩
  rcases i with _ | i <;> simp at h1 h2

theorem adjIn_cons_cons {p q : Node} {rest : List Node} {a b : Node} :
    adjIn (p :: q :: rest) a b ↔ (p = a ∧ q = b) ∨ adjIn (q :: rest) a b := by
  constructor
  · rintro ⟨i, h1, h2⟩
    rcases i with _ | i
    · left
      simp only [List.getElem?_cons_zero, Option.some.injEq] at h1
      simp only [List.getElem?_cons_succ, List.getElem?_cons_zero, Option.some.injEq] at h2
      exact ⟨h1, h2⟩
    · right
      exact ⟨i, by simpa using h1, by simpa using h2⟩
  · rintro (⟨h1, h2⟩ | ⟨i, h1, h2⟩)
    · exact ⟨0, by simp [h1], by simp [h2]⟩
    · exact ⟨i + 1, by simpa using h1, by simpa using h2⟩

theorem getNbrs_addNbr (g : Graph) (x y a : Node) :
    getNbrs (addNbr g x y) a =
      if a = x then (if y ∈ getNbrs g x then getNbrs g x else getNbrs g x ++ [y])
      else getNbrs g a := by
  induction g with
  | nil =>
      simp only [addNbr, getNbrs]
      by_cases h : a = x
      · subst h; simp [getNbrs]
      · rw [if_neg (fun hh : x = a => h hh.symm), if_neg h]
  | cons p rest ih =>
      obtain ⟨k, l⟩ := p
      simp only [addNbr]
      by_cases hk : k = x
      · subst hk
        simp only [if_pos rfl, getNbrs]
        by_cases ha : k = a
        · subst ha; simp [getNbrs]
        · rw [if_neg ha, if_neg ha, if_neg (fun h : a = k => ha h.symm)]
      · rw [if_neg hk]
        simp only [getNbrs]
        by_cases ha : k = a
        · subst ha
          rw [if_pos rfl, if_pos rfl, if_neg (fun h : k = x => hk h)]
        · rw [if_neg ha, if_neg ha, ih]
          simp only [getNbrs, if_neg hk, if_neg ha]

theorem mem_getNbrs_addNbr {g : Graph} {x y a b : Node} :
    b ∈ getNbrs (addNbr g x y) a ↔ b ∈ getNbrs g a ∨ (a = x ∧ b = y) := by
  rw [getNbrs_addNbr]
  by_cases hax : a = x
  · subst hax
    by_cases hy : y ∈ getNbrs g a
    · simp only [if_pos rfl, if_pos hy, eq_self_iff_true, true_and, if_true]
      exact ⟨Or.inl, fun h => h.elim id (fun h => h ▸ hy)⟩
    · simp only [if_pos rfl, if_neg hy, eq_self_iff_true, true_and, if_true, List.mem_append,
        List.mem_singleton]
  · simp [hax]

theorem mem_getNbrs_addPair {st : Graph × List Node} {p q a b : Node} :
    b ∈ getNbrs (addPair st p q).1 a ↔
      b ∈ getNbrs st.1 a ∨ (a = p ∧ b = q) ∨ (a = q ∧ b = p) := by
  simp only [addPair, mem_getNbrs_addNbr]
  tauto

theorem mem_getNbrs_addSeg (seg : Segment) (st : Graph × List Node) (a b : Node) :
    b ∈ getNbrs (addSeg st seg).1 a ↔
      b ∈ getNbrs st.1 a ∨ adjIn seg a b ∨ adjIn seg b a := by
  induction seg generalizing st with
  | nil => simp [addSeg, adjIn_nil]
  | cons p rest ih =>
      match rest with
      | [] => simp [addSeg, adjIn_single]
      | q :: rest' =>
          simp only [addSeg, ih (addPair st p q), mem_getNbrs_addPair,
            adjIn_cons_cons (p := p) (q := q)]
          tauto

theorem mem_getNbrs_foldl (segs : List Segment) (st : Graph × List Node) (a b : Node) :
    b ∈ getNbrs (segs.foldl addSeg st).1 a ↔
      b ∈ getNbrs st.1 a ∨ ∃ seg ∈ segs, adjIn seg a b ∨ adjIn seg b a := by
  induction segs generalizing st with
  | nil => simp
  | cons seg rest ih =>
      simp only [List.foldl_cons, ih (addSeg st seg), mem_getNbrs_addSeg]
      constructor
      · rintro (h | h)
        · rcases h with h | h
          · exact Or.inl h
          · exact Or.inr ⟨seg, List.mem_cons_self _ _, h⟩
        · obtain ⟨s, hs, hh⟩ := h
          exact Or.inr ⟨s, List.mem_cons_of_mem _ hs, hh⟩
      · rintro (h | ⟨s, hs, hh⟩)
        · exact Or.inl (Or.inl h)
        · rcases List.mem_cons.mp hs with hs | hs
          · exact Or.inl (Or.inr (hs ▸ hh))
          · exact Or.inr ⟨s, hs, hh⟩

/-- Membership in the graph built by `build_graph` is exactly adjacency of
consecutive points in some input segment. -/
theorem mem_getNbrs_build_graph (segments : List Segment) (a b : Node) :
    b ∈ getNbrs (build_graph segments).1 a ↔
      ∃ seg ∈ segments, adjIn seg a b ∨ adjIn seg b a := by
  rw [build_graph, mem_getNbrs_foldl]
  simp [getNbrs]

/-! ### Node-set lemmas for the graph builder -/

/-- `a` occurs in some consecutive pair of the segment. -/
def inSomePair (seg : Segment) (a : Node) : Prop :=
  ∃ b, adjIn seg a b ∨ adjIn seg b a

theorem inSomePair_nil (a : Node) : ¬ inSomePair [] a := by
  rintro ⟨b, h | h⟩ <;> exact adjIn_nil _ _ h

theorem inSomePair_single (p a : Node) : ¬ inSomePair [p] a := by
  rintro ⟨b, h | h⟩ <;> exact adjIn_single _ _ _ h

theorem inSomePair_cons_cons {p q a : Node} {rest : List Node} :
    inSomePair (p :: q :: rest) a ↔ a = p ∨ a = q ∨ inSomePair (q :: rest) a := by
  constructor
  · rintro ⟨b, h | h⟩
    · rcases adjIn_cons_cons.mp h with ⟨h1, -⟩ | h
      · exact Or.inl h1.symm
      · exact Or.inr (Or.inr ⟨b, Or.inl h⟩)
    · rcases adjIn_cons_cons.mp h with ⟨-, h2⟩ | h
      · exact Or.inr (Or.inl h2.symm)
      · exact Or.inr (Or.inr ⟨b, Or.inr h⟩)
  · rintro (rfl | rfl | ⟨b, h | h⟩)
    · exact ⟨q, Or.inl (adjIn_cons_cons.mpr (Or.inl ⟨rfl, rfl⟩))⟩
    · exact ⟨p, Or.inr (adjIn_cons_cons.mpr (Or.inl ⟨rfl, rfl⟩))⟩
    · exact ⟨b, Or.inl (adjIn_cons_cons.mpr (Or.inr h))⟩
    · exact ⟨b, Or.inr (adjIn_cons_cons.mpr (Or.inr h))⟩

theorem mem_insertNode {ns : List Node} {x a : Node} :
    a ∈ insertNode ns x ↔ a ∈ ns ∨ a = x := by
  by_cases h : x ∈ ns
  · simp only [insertNode, if_pos h]
    exact ⟨Or.inl, fun hh => hh.elim id (fun hh => hh ▸ h)⟩
  · simp [insertNode, if_neg h]

theorem mem_keys_addNbr {g : Graph} {x y a : Node} :
    a ∈ (addNbr g x y).map Prod.fst ↔ a ∈ g.map Prod.fst ∨ a = x := by
  induction g with
  | nil => simp [addNbr]
  | cons p rest ih =>
      obtain ⟨k, l⟩ := p
      by_cases hk : k = x
      · subst hk
        have e1 : addNbr ((k, l) :: rest) k y
            = (k, if y ∈ l then l else l ++ [y]) :: rest := by
          simp [addNbr]
        rw [e1]
        simp only [List.map_cons, List.mem_cons]
        tauto
      · simp only [addNbr, if_neg hk, List.map_cons, List.mem_cons, ih]
        tauto

theorem mem_nodes_addPair {st : Graph × List Node} {p q a : Node} :
    a ∈ (addPair st p q).2 ↔ a ∈ st.2 ∨ a = p ∨ a = q := by
  simp only [addPair, mem_insertNode]
  tauto

theorem mem_keys_addPair {st : Graph × List Node} {p q a : Node} :
    a ∈ (addPair st p q).1.map Prod.fst ↔ a ∈ st.1.map Prod.fst ∨ a = p ∨ a = q := by
  simp only [addPair, mem_keys_addNbr]
  tauto

theorem mem_nodes_addSeg (seg : Segment) (st : Graph × List Node) (a : Node) :
    a ∈ (addSeg st seg).2 ↔ a ∈ st.2 ∨ inSomePair seg a := by
  induction seg generalizing st with
  | nil => simp [addSeg, inSomePair_nil]
  | cons p rest ih =>
      match rest with
      | [] => simp [addSeg, inSomePair_single]
      | q :: rest' =>
          simp only [addSeg, ih (addPair st p q), mem_nodes_addPair,
            inSomePair_cons_cons (p := p) (q := q)]
          tauto

theorem mem_keys_addSeg (seg : Segment) (st : Graph × List Node) (a : Node) :
    a ∈ (addSeg st seg).1.map Prod.fst ↔ a ∈ st.1.map Prod.fst ∨ inSomePair seg a := by
  induction seg generalizing st with
  | nil => simp [addSeg, inSomePair_nil]
  | cons p rest ih =>
      match rest with
      | [] => simp [addSeg, inSomePair_single]
      | q :: rest' =>
          simp only [addSeg, ih (addPair st p q), mem_keys_addPair,
            inSomePair_cons_cons (p := p) (q := q)]
          tauto

theorem vals_ne_nil_addNbr {g : Graph} {x y : Node} (h : ∀ e ∈ g, e.2 ≠ []) :
    ∀ e ∈ addNbr g x y, e.2 ≠ [] := by
  induction g with
  | nil => simp [addNbr]
  | cons p rest ih =>
      obtain ⟨k, l⟩ := p
      intro e he
      by_cases hk : k = x
      · rw [addNbr, if_pos hk] at he
        rcases List.mem_cons.mp he with he | he
        · subst he
          by_cases hb : y ∈ l
          · simpa [hb] using h (k, l) (List.mem_cons_self _ _)
          · simp [hb]
        · exact h e (List.mem_cons_of_mem _ he)
      · rw [addNbr, if_neg hk] at he
        rcases List.mem_cons.mp he with he | he
        · exact he ▸ h (k, l) (List.mem_cons_self _ _)
        · exact ih (fun e' he' => h e' (List.mem_cons_of_mem _ he')) e he

theorem vals_ne_nil_addSeg (seg : Segment) (st : Graph × List Node)
    (h : ∀ e ∈ st.1, e.2 ≠ []) : ∀ e ∈ (addSeg st seg).1, e.2 ≠ [] := by
  induction seg generalizing st with
  | nil => simpa [addSeg] using h
  | cons p rest ih =>
      match rest with
      | [] => simpa [addSeg] using h
      | q :: rest' =>
          exact ih (addPair st p q) (vals_ne_nil_addNbr (vals_ne_nil_addNbr h))

theorem vals_ne_nil_build_graph (segments : List Segment) :
    ∀ e ∈ (build_graph segments).1, e.2 ≠ [] := by
  rw [build_graph]
  have main : ∀ (segs : List Segment) (st : Graph × List Node),
      (∀ e ∈ st.1, e.2 ≠ []) → ∀ e ∈ (segs.foldl addSeg st).1, e.2 ≠ [] := by
    intro segs
    induction segs with
    | nil => intro st h; simpa using h
    | cons s rest ih =>
        intro st h
        exact ih (addSeg st s) (vals_ne_nil_addSeg s st h)
  exact main segments ([], []) (by simp)

theorem getNbrs_ne_nil_iff {g : Graph} (h : ∀ e ∈ g, e.2 ≠ []) (a : Node) :
    getNbrs g a ≠ [] ↔ a ∈ g.map Prod.fst := by
  induction g with
  | nil => simp [getNbrs]
  | cons p rest ih =>
      obtain ⟨k, l⟩ := p
      by_cases hk : k = a
      · subst hk
        have e1 : getNbrs ((k, l) :: rest) k = l := by simp [getNbrs]
        rw [e1]
        constructor
        · intro _; simp
        · intro _; exact h (k, l) (List.mem_cons_self _ _)
      · have e1 : getNbrs ((k, l) :: rest) a = getNbrs rest a := by simp [getNbrs, hk]
        rw [e1, ih (fun e he => h e (List.mem_cons_of_mem _ he))]
        simp only [List.map_cons, List.mem_cons]
        exact ⟨Or.inr, fun hh => hh.elim (fun hh => absurd hh.symm hk) id⟩

theorem mem_nodes_build_graph (segments : List Segment) (a : Node) :
    a ∈ (build_graph segments).2 ↔ ∃ seg ∈ segments, inSomePair seg a := by
  rw [build_graph]
  have main : ∀ (segs : List Segment) (st : Graph × List Node),
      a ∈ (segs.foldl addSeg st).2 ↔ a ∈ st.2 ∨ ∃ seg ∈ segs, inSomePair seg a := by
    intro segs
    induction segs with
    | nil => intro st; simp
    | cons s rest ih =>
        intro st
        rw [List.foldl_cons, ih (addSeg st s), mem_nodes_addSeg]
        constructor
        · rintro ((h | h) | ⟨sg, hsg, hh⟩)
          · exact Or.inl h
          · exact Or.inr ⟨s, List.mem_cons_self _ _, h⟩
          · exact Or.inr ⟨sg, List.mem_cons_of_mem _ hsg, hh⟩
        · rintro (h | ⟨sg, hsg, hh⟩)
          · exact Or.inl (Or.inl h)
          · rcases List.mem_cons.mp hsg with hsg | hsg
            · exact Or.inl (Or.inr (hsg ▸ hh))
            · exact Or.inr ⟨sg, hsg, hh⟩
  rw [main segments ([], [])]
  simp

theorem mem_keys_build_graph (segments : List Segment) (a : Node) :
    a ∈ (build_graph segments).1.map Prod.fst ↔ ∃ seg ∈ segments, inSomePair seg a := by
  rw [build_graph]
  have main : ∀ (segs : List Segment) (st : Graph × List Node),
      a ∈ (segs.foldl addSeg st).1.map Prod.fst ↔
        a ∈ st.1.map Prod.fst ∨ ∃ seg ∈ segs, inSomePair seg a := by
    intro segs
    induction segs with
    | nil => intro st; simp
    | cons s rest ih =>
        intro st
        rw [List.foldl_cons, ih (addSeg st s), mem_keys_addSeg]
        constructor
        · rintro ((h | h) | ⟨sg, hsg, hh⟩)
          · exact Or.inl h
          · exact Or.inr ⟨s, List.mem_cons_self _ _, h⟩
          · exact Or.inr ⟨sg, List.mem_cons_of_mem _ hsg, hh⟩
        · rintro (h | ⟨sg, hsg, hh⟩)
          · exact Or.inl (Or.inl h)
          · rcases List.mem_cons.mp hsg with hsg | hsg
            · exact Or.inl (Or.inr (hsg ▸ hh))
            · exact Or.inr ⟨sg, hsg, hh⟩
  rw [main segments ([], [])]
  simp

/-! ### Claims C3, C4, C10: the graph builder -/

theorem chain'_not_adjIn {seg : Segment} (h : seg.Chain' (· ≠ ·)) (a : Node) :
    ¬ adjIn seg a a := by
  rintro ⟨i, h1, h2⟩
  obtain ⟨hi1, e1⟩ := List.getElem?_eq_some.mp h1
  obtain ⟨hi2, e2⟩ := List.getElem?_eq_some.mp h2
  have hlt : i < seg.length - 1 := by omega
  have := List.chain'_iff_get.mp h i hlt
  simp only [List.get_eq_getElem] at this
  exact this (by rw [e1, e2])

/-- C3 counterexample: a segment repeating the same point twice produces a
self-loop, so the graph is not loop-free on all inputs. -/
theorem C3_counterexample :
    ((0 : ℚ), (0 : ℚ)) ∈
      getNbrs (build_graph [[((0 : ℚ), (0 : ℚ)), ((0 : ℚ), (0 : ℚ))]]).1
        ((0 : ℚ), (0 : ℚ)) := by
  decide

/-- C3 (amended): if no segment contains two equal consecutive points, the
graph built by `build_graph` is loop-free: no node is its own neighbour. -/
theorem C3_loop_free (segments : List Segment)
    (h : ∀ seg ∈ segments, seg.Chain' (· ≠ ·)) (a : Node) :
    a ∉ getNbrs (build_graph segments).1 a := by
  intro ha
  rw [mem_getNbrs_build_graph] at ha
  obtain ⟨seg, hseg, hadj | hadj⟩ := ha <;>
    exact chain'_not_adjIn (h seg hseg) a hadj

theorem C3_loop_free_witness :
    (∀ seg ∈ [[((0 : ℚ), (0 : ℚ)), ((0 : ℚ), (1 : ℚ))]], seg.Chain' (· ≠ ·))
    ∧ ((0 : ℚ), (0 : ℚ)) ∉
        getNbrs (build_graph [[((0 : ℚ), (0 : ℚ)), ((0 : ℚ), (1 : ℚ))]]).1
          ((0 : ℚ), (0 : ℚ)) := by
  have hch : ∀ seg ∈ [[((0 : ℚ), (0 : ℚ)), ((0 : ℚ), (1 : ℚ))]], seg.Chain' (· ≠ ·) := by
    intro seg hs
    rw [List.mem_singleton] at hs
    subst hs
    exact List.chain'_cons.mpr ⟨by decide, List.chain'_singleton _⟩
  exact ⟨hch, C3_loop_free _ hch _⟩

/-- C4: `b` is a neighbour of `a` in the graph built by `build_graph` exactly
when `(a, b)` or `(b, a)` occur as consecutive points of some input segment
(so in particular every consecutive pair yields both directed neighbour
entries), and consequently the graph is symmetric. -/
theorem C4_graph_edges (segments : List Segment) (a b : Node) :
    (b ∈ getNbrs (build_graph segments).1 a ↔
      ∃ seg ∈ segments, adjIn seg a b ∨ adjIn seg b a)
    ∧ (b ∈ getNbrs (build_graph segments).1 a →
        a ∈ getNbrs (build_graph segments).1 b) := by
  refine ⟨mem_getNbrs_build_graph segments a b, fun h => ?_⟩
  rw [mem_getNbrs_build_graph] at h ⊢
  obtain ⟨seg, hseg, hh⟩ := h
  exact ⟨seg, hseg, hh.symm⟩

theorem C4_graph_edges_witness :
    ((0 : ℚ), (0 : ℚ)) ∈
      getNbrs (build_graph [[((0 : ℚ), (0 : ℚ)), ((0 : ℚ), (1 : ℚ))]]).1
        ((0 : ℚ), (1 : ℚ)) :=
  (C4_graph_edges [[((0 : ℚ), (0 : ℚ)), ((0 : ℚ), (1 : ℚ))]]
    ((0 : ℚ), (0 : ℚ)) ((0 : ℚ), (1 : ℚ))).2 (by decide)

/-- C10: the node set returned by `build_graph` has the same members as the
key set of the returned adjacency structure; every returned node has a
non-empty neighbour list; and a point belongs to the node set exactly when
it occurs in a consecutive pair of some segment (so a point occurring only
in segments with fewer than two points is absent). -/
theorem C10_node_set (segments : List Segment) (a : Node) :
    (a ∈ (build_graph segments).2 ↔ a ∈ (build_graph segments).1.map Prod.fst)
    ∧ (a ∈ (build_graph segments).2 → getNbrs (build_graph segments).1 a ≠ [])
    ∧ (a ∈ (build_graph segments).2 ↔
        ∃ seg ∈ segments, ∃ b, adjIn seg a b ∨ adjIn seg b a) := by
  have hkeys := mem_keys_build_graph segments a
  have hnodes := mem_nodes_build_graph segments a
  have hne := getNbrs_ne_nil_iff (vals_ne_nil_build_graph segments) a
  refine ⟨by rw [hkeys, hnodes], fun h => ?_, by rw [hnodes]; rfl⟩
  rw [hne, hkeys]
  exact hnodes.mp h

theorem C10_node_set_witness :
    getNbrs (build_graph [[((0 : ℚ), (0 : ℚ)), ((0 : ℚ), (1 : ℚ))]]).1
      ((0 : ℚ), (1 : ℚ)) ≠ [] :=
  (C10_node_set [[((0 : ℚ), (0 : ℚ)), ((0 : ℚ), (1 : ℚ))]] ((0 : ℚ), (1 : ℚ))).2.1
    (by decide)

/-! ### Claims C8, C2, C7: façade and edge cases -/

/-- C8: `termini` returns the `((0,0),(0,0))` sentinel on the empty route
and `(route[0], route[-1])` on every non-empty route; in particular
`termini [p] = (p, p)` and `termini [a, b, c] = (a, c)`. -/
theorem C8_termini (route : List Node) (h : route ≠ []) :
    termini [] = (((0 : ℚ), (0 : ℚ)), ((0 : ℚ), (0 : ℚ)))
    ∧ termini route = (route.head h, route.getLast h)
    ∧ (∀ p : Node, termini [p] = (p, p))
    ∧ (∀ a b c : Node, termini [a, b, c] = (a, c)) := by
  refine ⟨rfl, ?_, fun p => rfl, fun a b c => rfl⟩
  match route with
  | a :: rest =>
      simp only [termini, List.head_cons]
      rw [List.getLast_eq_getLastD]

theorem C8_termini_witness :
    termini [((5 : ℚ), (6 : ℚ)), ((7 : ℚ), (8 : ℚ))] =
      (((5 : ℚ), (6 : ℚ)), ((7 : ℚ), (8 : ℚ))) :=
  (C8_termini [((5 : ℚ), (6 : ℚ)), ((7 : ℚ), (8 : ℚ))] (by decide)).2.1

/-- C2: on the malformed input `[[]]` (a segment with zero points, which the
specification says must be rejected with a descriptive error) the code
raises nothing and silently returns the empty route, exactly as on the
well-formed empty input; the embedding is a total function, reflecting that
`build_ordered_route` performs no input validation at all. -/
theorem C2_no_validation (dist : Node → Node → ℚ) :
    build_ordered_route dist [[]] = [] ∧ build_ordered_route dist [] = [] := by
  constructor <;>
    simp [build_ordered_route, build_ordered_route_ord, build_graph, addSeg,
      largest_component, compLoop, sortComps, longest_path]

/-! ### Unfolding lemmas for the traversal loops -/

theorem bfsLoop_nil (dist : Node → Node → ℚ) (g : Graph) (s : BfsState) (h : s.q = []) :
    bfsLoop dist g s = s := by
  rw [bfsLoop.eq_def, h]

theorem bfsLoop_cons (dist : Node → Node → ℚ) (g : Graph) (s : BfsState)
    (cur : Node) (rest : List Node) (h : s.q = cur :: rest) :
    bfsLoop dist g s =
      bfsLoop dist g
        (visitFold dist cur ((lookupV s.visited cur).getD (0, [])).1
          ((lookupV s.visited cur).getD (0, [])).2 { s with q := rest } (getNbrs g cur)) := by
  rw [bfsLoop.eq_def, h]

theorem dfsLoop_nil (g : Graph) (seen comp : List Node) :
    dfsLoop g [] seen comp = (seen, comp) := by
  rw [dfsLoop.eq_def]

theorem dfsLoop_cons_seen (g : Graph) (cur : Node) (rest seen comp : List Node)
    (h : cur ∈ seen) :
    dfsLoop g (cur :: rest) seen comp = dfsLoop g rest seen comp := by
  rw [dfsLoop.eq_def]
  simp [h]

theorem dfsLoop_cons_new (g : Graph) (cur : Node) (rest seen comp : List Node)
    (h : cur ∉ seen) :
    dfsLoop g (cur :: rest) seen comp =
      dfsLoop g
        ((((getNbrs g cur).filter (fun n => decide (n ∉ seen ++ [cur]))).reverse) ++ rest)
        (seen ++ [cur]) (comp ++ [cur]) := by
  rw [dfsLoop.eq_def]
  simp [h]

theorem visitFold_skip (dist : Node → Node → ℚ) (cur : Node) (d0 : ℚ) (p0 : List Node)
    (ns : List Node) (s : BfsState) (h : ∀ y ∈ ns, y ∈ visKeys s) :
    visitFold dist cur d0 p0 s ns = s := by
  induction ns generalizing s with
  | nil => rfl
  | cons nxt rest ih =>
      have hstep : visitNbr dist cur d0 p0 s nxt = s := by
        simp [visitNbr, h nxt (List.mem_cons_self _ _)]
      simp only [visitFold, hstep]
      exact ih s (fun y hy => h y (List.mem_cons_of_mem _ hy))

/-- On a node whose neighbours are at most itself, the sweep returns the
start alone with distance 0. -/
theorem bfs_single (dist : Node → Node → ℚ) (g : Graph) (x : Node)
    (hx : ∀ y ∈ getNbrs g x, y = x) :
    bfs_longest_path dist g x = (x, 0, [x]) := by
  simp only [bfs_longest_path]
  rw [bfsLoop_cons dist g _ x [] rfl]
  rw [visitFold_skip]
  · rw [bfsLoop_nil _ _ _ rfl]
  · intro y hy
    rw [hx y hy]
    simp [visKeys]

/-- C7: `longest_path` on an empty component yields the empty path, and on
a one-node component (one whose sole node has no neighbour other than
possibly itself) yields that one-node path. -/
theorem C7_longest_path_edge_cases (dist : Node → Node → ℚ) (g : Graph) (x : Node)
    (hx : ∀ y ∈ getNbrs g x, y = x) :
    longest_path dist g [] = [] ∧ longest_path dist g [x] = [x] := by
  refine ⟨rfl, ?_⟩
  simp only [longest_path, bfs_single dist g x hx]

theorem C7_longest_path_edge_cases_witness :
    longest_path (fun _ _ => 1) [] [((3 : ℚ), (4 : ℚ))] = [((3 : ℚ), (4 : ℚ))] :=
  (C7_longest_path_edge_cases (fun _ _ => 1) [] ((3 : ℚ), (4 : ℚ))
    (by intro y hy; simp [getNbrs] at hy)).2


theorem bfsLoop_step (dist : Node → Node → ℚ) (g : Graph)
    (v : List (Node × ℚ × List Node)) (cur : Node) (rest : List Node)
    (f : Node) (md : ℚ) (mp : List Node) :
    bfsLoop dist g ⟨v, cur :: rest, f, md, mp⟩ =
      bfsLoop dist g (visitFold dist cur ((lookupV v cur).getD (0, [])).1
        ((lookupV v cur).getD (0, [])).2 ⟨v, rest, f, md, mp⟩ (getNbrs g cur)) :=
  bfsLoop_cons dist g _ cur rest rfl

theorem bfsLoop_fin (dist : Node → Node → ℚ) (g : Graph)
    (v : List (Node × ℚ × List Node)) (f : Node) (md : ℚ) (mp : List Node) :
    bfsLoop dist g ⟨v, [], f, md, mp⟩ = ⟨v, [], f, md, mp⟩ :=
  bfsLoop_nil dist g _ rfl

theorem visitNbr_skip (dist : Node → Node → ℚ) (cur : Node) (d0 : ℚ) (p0 : List Node)
    (v : List (Node × ℚ × List Node)) (q : List Node) (f : Node) (md : ℚ) (mp : List Node)
    (nxt : Node) (h : nxt ∈ v.map Prod.fst) :
    visitNbr dist cur d0 p0 ⟨v, q, f, md, mp⟩ nxt = ⟨v, q, f, md, mp⟩ := by
  simp [visitNbr, visKeys, h]

theorem visitNbr_new_gt (dist : Node → Node → ℚ) (cur : Node) (d0 : ℚ) (p0 : List Node)
    (v : List (Node × ℚ × List Node)) (q : List Node) (f : Node) (md : ℚ) (mp : List Node)
    (nxt : Node) (h : nxt ∉ v.map Prod.fst) (hgt : d0 + dist cur nxt > md) :
    visitNbr dist cur d0 p0 ⟨v, q, f, md, mp⟩ nxt =
      ⟨v ++ [(nxt, (d0 + dist cur nxt, p0 ++ [nxt]))], q ++ [nxt],
        nxt, d0 + dist cur nxt, p0 ++ [nxt]⟩ := by
  simp only [visitNbr, visKeys]
  rw [if_neg h, if_pos hgt]

/-- On a two-node graph whose nodes are mutual neighbours, the sweep from
one node reaches the other and records the two-node path, for any edge
weight that is positive on this edge. -/
theorem twoNodeSweep (dist : Node → Node → ℚ) (g : Graph) (u w : Node) (hne : u ≠ w)
    (h1 : (0 : ℚ) + dist u w > 0) (hgu : getNbrs g u = [w]) (hgw : getNbrs g w = [u]) :
    bfs_longest_path dist g u = (w, (0 : ℚ) + dist u w, [u, w]) := by
  simp only [bfs_longest_path]
  rw [bfsLoop_step]
  have hl : (lookupV [(u, ((0 : ℚ), [u]))] u).getD (0, []) = ((0 : ℚ), [u]) := by
    simp [lookupV]
  rw [hl, hgu]
  simp only [visitFold]
  have hmem1 : w ∉ List.map Prod.fst [(u, ((0 : ℚ), [u]))] := by
    simp only [List.map_cons, List.map_nil, List.mem_singleton]
    exact fun h => hne h.symm
  rw [visitNbr_new_gt _ _ _ _ _ _ _ _ _ _ hmem1 h1]
  simp only [List.nil_append, List.singleton_append, List.cons_append, List.append_nil]
  rw [bfsLoop_step]
  have hl2 : (lookupV [(u, ((0 : ℚ), [u])),
      (w, ((0 : ℚ) + dist u w, [u, w]))] w).getD (0, [])
      = ((0 : ℚ) + dist u w, [u, w]) := by
    simp [lookupV, fun h : u = w => hne h]
  rw [hl2, hgw]
  simp only [visitFold]
  have hmem2 : u ∈ List.map Prod.fst [(u, ((0 : ℚ), [u])),
      (w, ((0 : ℚ) + dist u w, [u, w]))] := by
    simp
  rw [visitNbr_skip _ _ _ _ _ _ _ _ _ _ hmem2]
  rw [bfsLoop_fin]

/-- C1: the route returned by the reconstruction depends on the iteration
order of the node set.  On the single segment `[(0,0), (0,1)]`, the two
enumerations `[(0,0), (0,1)]` and `[(0,1), (0,0)]` of the same node set
yield reversed routes, for every edge weight positive on this edge (as the
haversine weight is); the code imposes no fixed node ordering. -/
theorem C1_route_depends_on_iteration_order (dist : Node → Node → ℚ)
    (h1 : 0 < dist ((0 : ℚ), (0 : ℚ)) ((0 : ℚ), (1 : ℚ)))
    (h2 : 0 < dist ((0 : ℚ), (1 : ℚ)) ((0 : ℚ), (0 : ℚ))) :
    ([((0 : ℚ), (0 : ℚ)), ((0 : ℚ), (1 : ℚ))] : List Node).toFinset
        = ((build_graph [[((0 : ℚ), (0 : ℚ)), ((0 : ℚ), (1 : ℚ))]]).2).toFinset
    ∧ ([((0 : ℚ), (1 : ℚ)), ((0 : ℚ), (0 : ℚ))] : List Node).toFinset
        = ((build_graph [[((0 : ℚ), (0 : ℚ)), ((0 : ℚ), (1 : ℚ))]]).2).toFinset
    ∧ build_ordered_route_ord dist [((0 : ℚ), (0 : ℚ)), ((0 : ℚ), (1 : ℚ))]
          [[((0 : ℚ), (0 : ℚ)), ((0 : ℚ), (1 : ℚ))]]
        ≠ build_ordered_route_ord dist [((0 : ℚ), (1 : ℚ)), ((0 : ℚ), (0 : ℚ))]
          [[((0 : ℚ), (0 : ℚ)), ((0 : ℚ), (1 : ℚ))]] := by
  have hne : ((0 : ℚ), (0 : ℚ)) ≠ ((0 : ℚ), (1 : ℚ)) := by decide
  have h1' : (0 : ℚ) + dist ((0 : ℚ), (0 : ℚ)) ((0 : ℚ), (1 : ℚ)) > 0 := by
    rw [zero_add]; exact h1
  have h2' : (0 : ℚ) + dist ((0 : ℚ), (1 : ℚ)) ((0 : ℚ), (0 : ℚ)) > 0 := by
    rw [zero_add]; exact h2
  have hbg : (build_graph [[((0 : ℚ), (0 : ℚ)), ((0 : ℚ), (1 : ℚ))]]).1
      = [(((0 : ℚ), (0 : ℚ)), [((0 : ℚ), (1 : ℚ))]),
         (((0 : ℚ), (1 : ℚ)), [((0 : ℚ), (0 : ℚ))])] := by decide
  have hgu : getNbrs [(((0 : ℚ), (0 : ℚ)), [((0 : ℚ), (1 : ℚ))]),
      (((0 : ℚ), (1 : ℚ)), [((0 : ℚ), (0 : ℚ))])] ((0 : ℚ), (0 : ℚ))
      = [((0 : ℚ), (1 : ℚ))] := by decide
  have hgw : getNbrs [(((0 : ℚ), (0 : ℚ)), [((0 : ℚ), (1 : ℚ))]),
      (((0 : ℚ), (1 : ℚ)), [((0 : ℚ), (0 : ℚ))])] ((0 : ℚ), (1 : ℚ))
      = [((0 : ℚ), (0 : ℚ))] := by decide
  have hc1 : largest_component [((0 : ℚ), (0 : ℚ)), ((0 : ℚ), (1 : ℚ))]
      [(((0 : ℚ), (0 : ℚ)), [((0 : ℚ), (1 : ℚ))]),
       (((0 : ℚ), (1 : ℚ)), [((0 : ℚ), (0 : ℚ))])]
      = [((0 : ℚ), (0 : ℚ)), ((0 : ℚ), (1 : ℚ))] := by
    simp +decide [largest_component, compLoop, dfsLoop, sortComps, getNbrs]
  have hc2 : largest_component [((0 : ℚ), (1 : ℚ)), ((0 : ℚ), (0 : ℚ))]
      [(((0 : ℚ), (0 : ℚ)), [((0 : ℚ), (1 : ℚ))]),
       (((0 : ℚ), (1 : ℚ)), [((0 : ℚ), (0 : ℚ))])]
      = [((0 : ℚ), (1 : ℚ)), ((0 : ℚ), (0 : ℚ))] := by
    simp +decide [largest_component, compLoop, dfsLoop, sortComps, getNbrs]
  have hr1 : build_ordered_route_ord dist [((0 : ℚ), (0 : ℚ)), ((0 : ℚ), (1 : ℚ))]
      [[((0 : ℚ), (0 : ℚ)), ((0 : ℚ), (1 : ℚ))]]
      = [((0 : ℚ), (1 : ℚ)), ((0 : ℚ), (0 : ℚ))] := by
    simp only [build_ordered_route_ord, hbg, hc1, longest_path]
    rw [twoNodeSweep dist _ _ _ hne h1' hgu hgw]
    simp only []
    rw [twoNodeSweep dist _ _ _ (Ne.symm hne) h2' hgw hgu]
  have hr2 : build_ordered_route_ord dist [((0 : ℚ), (1 : ℚ)), ((0 : ℚ), (0 : ℚ))]
      [[((0 : ℚ), (0 : ℚ)), ((0 : ℚ), (1 : ℚ))]]
      = [((0 : ℚ), (0 : ℚ)), ((0 : ℚ), (1 : ℚ))] := by
    simp only [build_ordered_route_ord, hbg, hc2, longest_path]
    rw [twoNodeSweep dist _ _ _ (Ne.symm hne) h2' hgw hgu]
    simp only []
    rw [twoNodeSweep dist _ _ _ hne h1' hgu hgw]
  refine ⟨by decide, by decide, ?_⟩
  rw [hr1, hr2]
  decide


theorem C1_route_depends_on_iteration_order_witness :
    (0 < (1 : ℚ))
    ∧ (([((0 : ℚ), (0 : ℚ)), ((0 : ℚ), (1 : ℚ))] : List Node).toFinset
        = ((build_graph [[((0 : ℚ), (0 : ℚ)), ((0 : ℚ), (1 : ℚ))]]).2).toFinset
    ∧ ([((0 : ℚ), (1 : ℚ)), ((0 : ℚ), (0 : ℚ))] : List Node).toFinset
        = ((build_graph [[((0 : ℚ), (0 : ℚ)), ((0 : ℚ), (1 : ℚ))]]).2).toFinset
    ∧ build_ordered_route_ord (fun _ _ => 1) [((0 : ℚ), (0 : ℚ)), ((0 : ℚ), (1 : ℚ))]
          [[((0 : ℚ), (0 : ℚ)), ((0 : ℚ), (1 : ℚ))]]
        ≠ build_ordered_route_ord (fun _ _ => 1) [((0 : ℚ), (1 : ℚ)), ((0 : ℚ), (0 : ℚ))]
          [[((0 : ℚ), (0 : ℚ)), ((0 : ℚ), (1 : ℚ))]]) :=
  ⟨by decide,
    C1_route_depends_on_iteration_order (fun _ _ => 1) (by decide) (by decide)⟩


/-! ### Claim C9: the haversine distance metric (`geo_math.py`)

Floating-point trigonometry is modelled in exact real arithmetic.  This
model is adequate for the rounding-independent conjuncts proved below
(`d(a,a) = 0`, exact symmetry, non-negativity).  The remaining conjunct of
the claim, "zero only for identical coordinates", is decided by IEEE
rounding and underflow and so has no faithful statement here: the float
code returns exactly 0.0 for the distinct inputs `haversine(0, 0, 0,
1e-300)` because `sin(radians(1e-300)/2) ** 2` underflows to 0.0, an input
at which exact real arithmetic instead gives a small positive value. -/

namespace GeoMath

/-- `math.radians`: degrees to radians. -/
noncomputable def radians (d : ℝ) : ℝ := d * (Real.pi / 180)

/-- `math.atan2(y, x)` on the reals (the standard piecewise definition;
the `y = 0, x = 0` corner returns 0 as in CPython). -/
noncomputable def atan2 (y x : ℝ) : ℝ :=
  if 0 < x then Real.arctan (y / x)
  else if x = 0 then (if 0 < y then Real.pi / 2 else if y < 0 then -(Real.pi / 2) else 0)
  else if 0 ≤ y then Real.arctan (y / x) + Real.pi
  else Real.arctan (y / x) - Real.pi

/-- `GeoMath.haversine(lat1, lon1, lat2, lon2)`: great-circle distance with
Earth radius `R_KM = 6371`. -/
noncomputable def haversine (lat1 lon1 lat2 lon2 : ℝ) : ℝ :=
  let phi1 := radians lat1
  let phi2 := radians lat2
  let dphi := radians (lat2 - lat1)
  let dlmb := radians (lon2 - lon1)
  let a := Real.sin (dphi / 2) ^ 2 + Real.cos phi1 * Real.cos phi2 * Real.sin (dlmb / 2) ^ 2
  6371 * (2 * atan2 (Real.sqrt a) (Real.sqrt (1 - a)))

theorem atan2_nonneg (y x : ℝ) (hy : 0 ≤ y) : 0 ≤ atan2 y x := by
  rw [atan2]
  by_cases hx : 0 < x
  · rw [if_pos hx]
    have h0 : (0 : ℝ) ≤ y / x := div_nonneg hy hx.le
    calc (0 : ℝ) = Real.arctan 0 := Real.arctan_zero.symm
    _ ≤ Real.arctan (y / x) := Real.arctan_strictMono.monotone h0
  · rw [if_neg hx]
    by_cases hx0 : x = 0
    · rw [if_pos hx0]
      by_cases hy0 : 0 < y
      · rw [if_pos hy0]
        positivity
      · rw [if_neg hy0, if_neg (by linarith)]
    · rw [if_neg hx0, if_pos hy]
      have h1 : -(Real.pi / 2) < Real.arctan (y / x) := Real.neg_pi_div_two_lt_arctan _
      linarith [Real.pi_pos]

theorem atan2_zero_one : atan2 0 1 = 0 := by
  rw [atan2, if_pos one_pos]
  norm_num [Real.arctan_zero]

end GeoMath

/-- C9 (the rounding-independent conjuncts): the haversine metric
satisfies `d(a,a) = 0`, is exactly symmetric (hence symmetric within the
1e-9 tolerance) and non-negative.  The claim's remaining conjunct, that
`d = 0` only for identical coordinates, is violated by the floating-point
code through underflow (see the section comment) and is not stated here. -/
theorem C9_metric_properties (lat1 lon1 lat2 lon2 : ℝ) :
    GeoMath.haversine lat1 lon1 lat1 lon1 = 0
    ∧ GeoMath.haversine lat1 lon1 lat2 lon2 = GeoMath.haversine lat2 lon2 lat1 lon1
    ∧ 0 ≤ GeoMath.haversine lat1 lon1 lat2 lon2
    ∧ |GeoMath.haversine lat1 lon1 lat2 lon2 - GeoMath.haversine lat2 lon2 lat1 lon1|
        ≤ 1 / 1000000000 := by
  have hsymm : GeoMath.haversine lat1 lon1 lat2 lon2 = GeoMath.haversine lat2 lon2 lat1 lon1 := by
    simp only [GeoMath.haversine]
    have key : Real.sin (GeoMath.radians (lat2 - lat1) / 2) ^ 2
          + Real.cos (GeoMath.radians lat1) * Real.cos (GeoMath.radians lat2)
            * Real.sin (GeoMath.radians (lon2 - lon1) / 2) ^ 2
        = Real.sin (GeoMath.radians (lat1 - lat2) / 2) ^ 2
          + Real.cos (GeoMath.radians lat2) * Real.cos (GeoMath.radians lat1)
            * Real.sin (GeoMath.radians (lon1 - lon2) / 2) ^ 2 := by
      have e1 : GeoMath.radians (lat1 - lat2) = -GeoMath.radians (lat2 - lat1) := by
        rw [GeoMath.radians, GeoMath.radians]; ring
      have e2 : GeoMath.radians (lon1 - lon2) = -GeoMath.radians (lon2 - lon1) := by
        rw [GeoMath.radians, GeoMath.radians]; ring
      rw [e1, e2, neg_div, neg_div, Real.sin_neg, Real.sin_neg]
      ring
    rw [key]
  refine ⟨?_, hsymm, ?_, ?_⟩
  · have hrl : GeoMath.radians (lat1 - lat1) = 0 := by rw [GeoMath.radians]; ring
    have hro : GeoMath.radians (lon1 - lon1) = 0 := by rw [GeoMath.radians]; ring
    simp only [GeoMath.haversine, hrl, hro]
    norm_num [Real.sin_zero, Real.sqrt_zero, Real.sqrt_one, GeoMath.atan2_zero_one]
  · simp only [GeoMath.haversine]
    have h2 := GeoMath.atan2_nonneg
      (Real.sqrt (Real.sin (GeoMath.radians (lat2 - lat1) / 2) ^ 2
        + Real.cos (GeoMath.radians lat1) * Real.cos (GeoMath.radians lat2)
          * Real.sin (GeoMath.radians (lon2 - lon1) / 2) ^ 2))
      (Real.sqrt (1 - (Real.sin (GeoMath.radians (lat2 - lat1) / 2) ^ 2
        + Real.cos (GeoMath.radians lat1) * Real.cos (GeoMath.radians lat2)
          * Real.sin (GeoMath.radians (lon2 - lon1) / 2) ^ 2)))
      (Real.sqrt_nonneg _)
    linarith
  · rw [hsymm]
    norm_num


/-! ### Claim C5: invariants of the weighted breadth-first sweep -/

theorem lookupV_mem {v : List (Node × ℚ × List Node)} {x : Node} {e : ℚ × List Node}
    (h : lookupV v x = some e) : (x, e) ∈ v := by
  induction v with
  | nil => simp [lookupV] at h
  | cons p rest ih =>
      obtain ⟨k, e'⟩ := p
      by_cases hk : k = x
      · subst hk
        rw [lookupV, if_pos rfl] at h
        simp only [Option.some.injEq] at h
        subst h
        exact List.mem_cons_self _ _
      · rw [lookupV, if_neg hk] at h
        exact List.mem_cons_of_mem _ (ih h)

theorem lookupV_isSome {v : List (Node × ℚ × List Node)} {x : Node}
    (h : x ∈ v.map Prod.fst) : ∃ e, lookupV v x = some e := by
  induction v with
  | nil => simp at h
  | cons p rest ih =>
      obtain ⟨k, e'⟩ := p
      by_cases hk : k = x
      · exact ⟨e', by rw [lookupV, if_pos hk]⟩
      · rw [List.map_cons, List.mem_cons] at h
        rcases h with h | h
        · exact absurd h.symm hk
        · obtain ⟨e, he⟩ := ih h
          exact ⟨e, by rw [lookupV, if_neg hk]; exact he⟩

theorem nodup_append_singleton {l : List Node} {a : Node} (h : l.Nodup) (h2 : a ∉ l) :
    (l ++ [a]).Nodup := by
  rw [List.nodup_append]
  refine ⟨h, List.nodup_singleton _, fun x hx hxa => ?_⟩
  rw [List.mem_singleton] at hxa
  exact h2 (hxa ▸ hx)

theorem chain'_append_singleton {R : Node → Node → Prop} {l : List Node} {a c : Node}
    (h : l.Chain' R) (hl : l.getLast? = some c) (hr : R c a) : (l ++ [a]).Chain' R := by
  rw [List.chain'_append]
  exact ⟨h, List.chain'_singleton _, fun x hx y hy => by
    simp only [List.head?_cons, Option.mem_def, Option.some.injEq] at hy
    subst hy
    rw [hl] at hx
    simp only [Option.mem_def, Option.some.injEq] at hx
    subst hx
    exact hr⟩

/-- What holds of every record in the `visited` dict: a non-empty duplicate-
free walk through the graph from the start, ending at the record's key, all
of whose nodes are themselves visited. -/
def entryOk (g : Graph) (keys : List Node) (e : Node × ℚ × List Node) : Prop :=
  e.2.2 ≠ [] ∧ e.2.2.getLast? = some e.1 ∧ e.2.2.Nodup
  ∧ e.2.2.Chain' (fun a b => b ∈ getNbrs g a)
  ∧ ∀ m ∈ e.2.2, m ∈ keys

/-- The sweep's loop invariant relative to a set `C` of nodes closed under
adjacency. -/
def BfsInv (g : Graph) (C : List Node) (s : BfsState) : Prop :=
  (∀ e ∈ s.visited, entryOk g (visKeys s) e)
  ∧ (s.farthest, (s.maxdist, s.maxpath)) ∈ s.visited
  ∧ (∀ k ∈ visKeys s, k ∈ C)
  ∧ (∀ k ∈ s.q, k ∈ visKeys s)

theorem visitNbr_inv (dist : Node → Node → ℚ) (g : Graph) (C : List Node)
    (hclosed : ∀ a ∈ C, ∀ b ∈ getNbrs g a, b ∈ C)
    (cur : Node) (d0 : ℚ) (p0 : List Node) (s : BfsState) (nxt : Node)
    (hInv : BfsInv g C s)
    (hp : p0 ≠ [] ∧ p0.getLast? = some cur ∧ p0.Nodup
      ∧ p0.Chain' (fun a b => b ∈ getNbrs g a) ∧ ∀ m ∈ p0, m ∈ visKeys s)
    (hnxt : nxt ∈ getNbrs g cur) :
    BfsInv g C (visitNbr dist cur d0 p0 s nxt)
    ∧ (∀ k ∈ visKeys s, k ∈ visKeys (visitNbr dist cur d0 p0 s nxt)) := by
  obtain ⟨hent, hmax, hkC, hqk⟩ := hInv
  obtain ⟨hp1, hp2, hp3, hp4, hp5⟩ := hp
  by_cases hv : nxt ∈ visKeys s
  · have hstep : visitNbr dist cur d0 p0 s nxt = s := by simp [visitNbr, hv]
    rw [hstep]
    exact ⟨⟨hent, hmax, hkC, hqk⟩, fun k hk => hk⟩
  · have hvis : (visitNbr dist cur d0 p0 s nxt).visited
        = s.visited ++ [(nxt, (d0 + dist cur nxt, p0 ++ [nxt]))] := by
      simp only [visitNbr, if_neg hv]
      by_cases hmaxc : d0 + dist cur nxt > s.maxdist <;> simp [hmaxc]
    have hqq : (visitNbr dist cur d0 p0 s nxt).q = s.q ++ [nxt] := by
      simp only [visitNbr, if_neg hv]
      by_cases hmaxc : d0 + dist cur nxt > s.maxdist <;> simp [hmaxc]
    have hkeys : visKeys (visitNbr dist cur d0 p0 s nxt) = visKeys s ++ [nxt] := by
      simp [visKeys, hvis]
    have hcurC : cur ∈ C :=
      hkC cur (hp5 cur (List.mem_of_mem_getLast? hp2))
    have hnxtC : nxt ∈ C := hclosed cur hcurC nxt hnxt
    have hmono : ∀ k ∈ visKeys s, k ∈ visKeys (visitNbr dist cur d0 p0 s nxt) := by
      intro k hk
      rw [hkeys]
      exact List.mem_append_left _ hk
    have hnewOk : entryOk g (visKeys (visitNbr dist cur d0 p0 s nxt))
        (nxt, (d0 + dist cur nxt, p0 ++ [nxt])) := by
      refine ⟨by simp, ?_, ?_, ?_, ?_⟩
      · exact List.getLast?_concat p0
      · exact nodup_append_singleton hp3 (fun hmem => hv (hp5 nxt hmem))
      · exact chain'_append_singleton hp4 hp2 hnxt
      · intro m hm
        rcases List.mem_append.mp hm with hm | hm
        · exact hmono m (hp5 m hm)
        · rw [hkeys]
          exact List.mem_append_right _ hm
    refine ⟨⟨?_, ?_, ?_, ?_⟩, hmono⟩
    · intro e he
      rw [hvis] at he
      rcases List.mem_append.mp he with he | he
      · obtain ⟨e1, e2, e3, e4, e5⟩ := hent e he
        exact ⟨e1, e2, e3, e4, fun m hm => hmono m (e5 m hm)⟩
      · rw [List.mem_singleton] at he
        subst he
        exact hnewOk
    · simp only [visitNbr, if_neg hv]
      by_cases hmaxc : d0 + dist cur nxt > s.maxdist
      · simp only [if_pos hmaxc]
        exact List.mem_append_right _ (List.mem_singleton.mpr rfl)
      · simp only [if_neg hmaxc]
        exact List.mem_append_left _ hmax
    · intro k hk
      rw [hkeys] at hk
      rcases List.mem_append.mp hk with hk | hk
      · exact hkC k hk
      · rw [List.mem_singleton] at hk
        exact hk ▸ hnxtC
    · intro k hk
      rw [hqq] at hk
      rcases List.mem_append.mp hk with hk | hk
      · exact hmono k (hqk k hk)
      · rw [List.mem_singleton] at hk
        subst hk
        rw [hkeys]
        exact List.mem_append_right _ (List.mem_singleton.mpr rfl)

theorem visitFold_inv (dist : Node → Node → ℚ) (g : Graph) (C : List Node)
    (hclosed : ∀ a ∈ C, ∀ b ∈ getNbrs g a, b ∈ C)
    (cur : Node) (d0 : ℚ) (p0 : List Node) :
    ∀ (ns : List Node) (s : BfsState), BfsInv g C s →
      (p0 ≠ [] ∧ p0.getLast? = some cur ∧ p0.Nodup
        ∧ p0.Chain' (fun a b => b ∈ getNbrs g a) ∧ ∀ m ∈ p0, m ∈ visKeys s) →
      (∀ n ∈ ns, n ∈ getNbrs g cur) →
      BfsInv g C (visitFold dist cur d0 p0 s ns)
      ∧ (∀ k ∈ visKeys s, k ∈ visKeys (visitFold dist cur d0 p0 s ns)) := by
  intro ns
  induction ns with
  | nil => exact fun s hInv _ _ => ⟨hInv, fun k hk => hk⟩
  | cons nxt rest ih =>
      intro s hInv hp hns
      obtain ⟨hInv', hmono'⟩ := visitNbr_inv dist g C hclosed cur d0 p0 s nxt hInv hp
        (hns nxt (List.mem_cons_self _ _))
      obtain ⟨hp1, hp2, hp3, hp4, hp5⟩ := hp
      obtain ⟨hInv'', hmono''⟩ := ih (visitNbr dist cur d0 p0 s nxt) hInv'
        ⟨hp1, hp2, hp3, hp4, fun m hm => hmono' m (hp5 m hm)⟩
        (fun n hn => hns n (List.mem_cons_of_mem _ hn))
      exact ⟨hInv'', fun k hk => hmono'' k (hmono' k hk)⟩

theorem bfsLoop_inv (dist : Node → Node → ℚ) (g : Graph) (C : List Node)
    (hclosed : ∀ a ∈ C, ∀ b ∈ getNbrs g a, b ∈ C) (s : BfsState)
    (hInv : BfsInv g C s) : BfsInv g C (bfsLoop dist g s) := by
  induction s using bfsLoop.induct dist g with
  | case1 s hq =>
      rw [bfsLoop_nil dist g s hq]
      exact hInv
  | case2 s cur rest hq dp ih =>
      rw [bfsLoop_cons dist g s cur rest hq]
      apply ih
      obtain ⟨hent, hmax, hkC, hqk⟩ := hInv
      have hcurk : cur ∈ visKeys s := hqk cur (by rw [hq]; exact List.mem_cons_self _ _)
      obtain ⟨e, he⟩ := lookupV_isSome (by simpa [visKeys] using hcurk)
      have hmem := lookupV_mem he
      obtain ⟨e1, e2, e3, e4, e5⟩ := hent _ hmem
      have hInvRest : BfsInv g C { s with q := rest } := by
        refine ⟨hent, hmax, hkC, ?_⟩
        intro k hk
        exact hqk k (by rw [hq]; exact List.mem_cons_of_mem _ hk)
      have := visitFold_inv dist g C hclosed cur
        ((lookupV s.visited cur).getD (0, [])).1 ((lookupV s.visited cur).getD (0, [])).2
        (getNbrs g cur) { s with q := rest } hInvRest ?_ (fun n hn => hn)
      · exact this.1
      · rw [he]
        simp only [Option.getD_some]
        exact ⟨e1, e2, e3, e4, e5⟩

/-- The two-argument sweep keeps all invariants: its returned path is a
duplicate-free walk inside any adjacency-closed set containing the start,
and its farthest node lies in that set. -/
theorem bfs_ok (dist : Node → Node → ℚ) (g : Graph) (C : List Node) (start : Node)
    (hclosed : ∀ a ∈ C, ∀ b ∈ getNbrs g a, b ∈ C) (hstart : start ∈ C) :
    (bfs_longest_path dist g start).2.2.Nodup
    ∧ (bfs_longest_path dist g start).2.2.Chain' (fun a b => b ∈ getNbrs g a)
    ∧ (∀ m ∈ (bfs_longest_path dist g start).2.2, m ∈ C)
    ∧ (bfs_longest_path dist g start).1 ∈ C := by
  have hInv0 : BfsInv g C ⟨[(start, (0, [start]))], [start], start, 0, [start]⟩ := by
    refine ⟨?_, List.mem_singleton.mpr rfl, ?_, ?_⟩
    · intro e he
      rw [List.mem_singleton] at he
      subst he
      exact ⟨by simp, by simp, List.nodup_singleton _, List.chain'_singleton _,
        by simp [visKeys]⟩
    · intro k hk
      simp only [visKeys, List.map_cons, List.map_nil, List.mem_singleton] at hk
      exact hk ▸ hstart
    · intro k hk
      rw [List.mem_singleton] at hk
      simp [visKeys, hk]
  have hInv := bfsLoop_inv dist g C hclosed _ hInv0
  obtain ⟨hent, hmax, hkC, -⟩ := hInv
  obtain ⟨e1, e2, e3, e4, e5⟩ := hent _ hmax
  refine ⟨e3, e4, fun m hm => hkC m (e5 m hm), ?_⟩
  apply hkC
  simp only [visKeys]
  exact List.mem_map.mpr ⟨_, hmax, rfl⟩

/-- C5: for every graph, edge weight, and component enumeration closed under
adjacency, the route produced by `longest_path` has no repeated node, each
consecutive pair is a graph edge, every node of it lies in the component,
and its length is at most the component's cardinality. -/
theorem C5_longest_path_invariants (dist : Node → Node → ℚ) (g : Graph)
    (compEnum : List Node)
    (hclosed : ∀ a ∈ compEnum, ∀ b ∈ getNbrs g a, b ∈ compEnum) :
    (longest_path dist g compEnum).Nodup
    ∧ (longest_path dist g compEnum).Chain' (fun a b => b ∈ getNbrs g a)
    ∧ (∀ m ∈ longest_path dist g compEnum, m ∈ compEnum)
    ∧ (longest_path dist g compEnum).length ≤ compEnum.toFinset.card := by
  match hc : compEnum with
  | [] => simp [longest_path]
  | start :: rest =>
      have h1 := bfs_ok dist g (start :: rest) start hclosed (List.mem_cons_self _ _)
      have h2 := bfs_ok dist g (start :: rest) (bfs_longest_path dist g start).1 hclosed h1.2.2.2
      have hroute : longest_path dist g (start :: rest)
          = (bfs_longest_path dist g (bfs_longest_path dist g start).1).2.2 := rfl
      rw [hroute]
      refine ⟨h2.1, h2.2.1, h2.2.2.1, ?_⟩
      have hnodup := h2.1
      have hsub : (bfs_longest_path dist g (bfs_longest_path dist g start).1).2.2.toFinset
          ⊆ (start :: rest).toFinset := by
        intro x hx
        rw [List.mem_toFinset] at hx ⊢
        exact h2.2.2.1 x hx
      calc (bfs_longest_path dist g (bfs_longest_path dist g start).1).2.2.length
          = (bfs_longest_path dist g (bfs_longest_path dist g start).1).2.2.toFinset.card :=
            (List.toFinset_card_of_nodup hnodup).symm
        _ ≤ (start :: rest).toFinset.card := Finset.card_le_card hsub

theorem C5_longest_path_invariants_witness :
    (∀ a ∈ [((9 : ℚ), (9 : ℚ))], ∀ b ∈ getNbrs [] a, b ∈ [((9 : ℚ), (9 : ℚ))])
    ∧ ((longest_path (fun _ _ => 0) [] [((9 : ℚ), (9 : ℚ))]).Nodup
    ∧ (longest_path (fun _ _ => 0) [] [((9 : ℚ), (9 : ℚ))]).Chain'
        (fun a b => b ∈ getNbrs [] a)
    ∧ (∀ m ∈ longest_path (fun _ _ => 0) [] [((9 : ℚ), (9 : ℚ))],
        m ∈ [((9 : ℚ), (9 : ℚ))])
    ∧ (longest_path (fun _ _ => 0) [] [((9 : ℚ), (9 : ℚ))]).length
        ≤ ([((9 : ℚ), (9 : ℚ))] : List Node).toFinset.card) :=
  ⟨fun a _ b hb => absurd hb (by simp [getNbrs]),
    C5_longest_path_invariants (fun _ _ => 0) [] [((9 : ℚ), (9 : ℚ))]
      (fun a _ b hb => absurd hb (by simp [getNbrs]))⟩


/-! ### Claim C6: correctness of the component finder -/

/-- Reachability along graph edges. -/
def Reach (g : Graph) (a b : Node) : Prop :=
  Relation.ReflTransGen (fun x y => y ∈ getNbrs g x) a b

theorem reach_symm {g : Graph} (hsym : ∀ a b, b ∈ getNbrs g a → a ∈ getNbrs g b)
    {a b : Node} (h : Reach g a b) : Reach g b a :=
  Relation.ReflTransGen.symmetric (fun x y hxy => hsym x y hxy) h

theorem reach_in_closed {g : Graph} {seen : List Node}
    (hcl : ∀ x ∈ seen, ∀ b ∈ getNbrs g x, b ∈ seen)
    {x y : Node} (hx : x ∈ seen) (h : Reach g x y) : y ∈ seen := by
  induction h with
  | refl => exact hx
  | tail hr he ih => exact hcl _ ih _ he

theorem dfsLoop_spec (g : Graph) (r : Node) :
    ∀ (stack seen comp : List Node), (∀ x ∈ stack, Reach g r x) →
    ∃ delta : List Node,
      (dfsLoop g stack seen comp).1 = seen ++ delta
      ∧ (dfsLoop g stack seen comp).2 = comp ++ delta
      ∧ (∀ x ∈ stack, x ∈ (dfsLoop g stack seen comp).1)
      ∧ (∀ d ∈ delta, ∀ b ∈ getNbrs g d, b ∈ (dfsLoop g stack seen comp).1)
      ∧ (∀ d ∈ delta, Reach g r d)
      ∧ (∀ d ∈ delta, d ∉ seen)
      ∧ delta.Nodup := by
  intro stack seen comp
  induction stack, seen, comp using dfsLoop.induct g with
  | case1 seen comp =>
      intro _
      refine ⟨[], ?_, ?_, ?_, ?_, ?_, ?_, ?_⟩ <;>
        simp [dfsLoop_nil]
  | case2 seen comp cur rest hcur ih =>
      intro hst
      rw [dfsLoop_cons_seen g cur rest seen comp hcur]
      obtain ⟨delta, h1, h2, h3, h4, h5, h6, h7⟩ :=
        ih (fun x hx => hst x (List.mem_cons_of_mem _ hx))
      refine ⟨delta, h1, h2, ?_, h4, h5, h6, h7⟩
      intro x hx
      rcases List.mem_cons.mp hx with rfl | hx
      · rw [h1]
        exact List.mem_append_left _ hcur
      · exact h3 x hx
  | case3 seen comp cur rest hcur ih =>
      intro hst
      have hcurR : Reach g r cur := hst cur (List.mem_cons_self _ _)
      rw [dfsLoop_cons_new g cur rest seen comp hcur]
      have hst' : ∀ x ∈ ((getNbrs g cur).filter
          (fun n => decide (n ∉ seen ++ [cur]))).reverse ++ rest, Reach g r x := by
        intro x hx
        rcases List.mem_append.mp hx with hx | hx
        · rw [List.mem_reverse, List.mem_filter] at hx
          exact hcurR.tail hx.1
        · exact hst x (List.mem_cons_of_mem _ hx)
      obtain ⟨delta', h1, h2, h3, h4, h5, h6, h7⟩ := ih hst'
      have hgoal1 : (dfsLoop g
          (((getNbrs g cur).filter (fun n => decide (n ∉ seen ++ [cur]))).reverse ++ rest)
          (seen ++ [cur]) (comp ++ [cur])).1 = seen ++ (cur :: delta') := by
        rw [h1, List.append_assoc]
        rfl
      have hgoal2 : (dfsLoop g
          (((getNbrs g cur).filter (fun n => decide (n ∉ seen ++ [cur]))).reverse ++ rest)
          (seen ++ [cur]) (comp ++ [cur])).2 = comp ++ (cur :: delta') := by
        rw [h2, List.append_assoc]
        rfl
      refine ⟨cur :: delta', hgoal1, hgoal2, ?_, ?_, ?_, ?_, ?_⟩
      · intro x hx
        rcases List.mem_cons.mp hx with rfl | hx
        · rw [h1]
          exact List.mem_append_left _ (List.mem_append_right _ (List.mem_singleton.mpr rfl))
        · exact h3 x (List.mem_append_right _ hx)
      · intro d hd b hb
        rcases List.mem_cons.mp hd with rfl | hd
        · by_cases hbs : b ∈ seen ++ [d]
          · rw [h1]
            exact List.mem_append_left _ hbs
          · apply h3
            apply List.mem_append_left
            rw [List.mem_reverse, List.mem_filter]
            exact ⟨hb, by simpa using hbs⟩
        · exact h4 d hd b hb
      · intro d hd
        rcases List.mem_cons.mp hd with hd | hd
        · exact hd ▸ hcurR
        · exact h5 d hd
      · intro d hd
        rcases List.mem_cons.mp hd with hd | hd
        · exact hd ▸ hcur
        · intro hds
          exact h6 d hd (List.mem_append_left _ hds)
      · rw [List.nodup_cons]
        refine ⟨fun hc => ?_, h7⟩
        exact h6 cur hc (List.mem_append_right _ (List.mem_singleton.mpr rfl))


/-- Running the inner DFS from an unvisited root `r`, with the already-seen
set closed under adjacency, appends exactly the reachability class of `r`:
the emitted component is duplicate-free and contains `m` iff `m` is
reachable from `r`. -/
theorem dfs_component (g : Graph) (r : Node) (seen : List Node)
    (hsym : ∀ a b, b ∈ getNbrs g a → a ∈ getNbrs g b)
    (hcl : ∀ x ∈ seen, ∀ b ∈ getNbrs g x, b ∈ seen)
    (hr : r ∉ seen) :
    ∃ delta : List Node,
      (dfsLoop g [r] seen []).1 = seen ++ delta
      ∧ (dfsLoop g [r] seen []).2 = delta
      ∧ (∀ m, m ∈ delta ↔ Reach g r m)
      ∧ delta.Nodup
      ∧ (∀ x ∈ seen ++ delta, ∀ b ∈ getNbrs g x, b ∈ seen ++ delta) := by
  obtain ⟨delta, h1, h2, h3, h4, h5, h6, h7⟩ := dfsLoop_spec g r [r] seen []
    (by intro x hx; rw [List.mem_singleton] at hx; exact hx ▸ Relation.ReflTransGen.refl)
  have hrmem : r ∈ seen ++ delta := by
    have := h3 r (List.mem_singleton.mpr rfl)
    rwa [h1] at this
  have hcompl : ∀ m, Reach g r m → m ∈ seen ++ delta := by
    intro m hm
    induction hm with
    | refl => exact hrmem
    | tail hr' he ih =>
        rcases List.mem_append.mp ih with hmid | hmid
        · exact List.mem_append_left _ (hcl _ hmid _ he)
        · have := h4 _ hmid _ he
          rwa [h1] at this
  refine ⟨delta, h1, by simpa using h2, ?_, h7, ?_⟩
  · intro m
    constructor
    · exact h5 m
    · intro hm
      rcases List.mem_append.mp (hcompl m hm) with hmid | hmid
      · exfalso
        exact hr (reach_in_closed hcl hmid (reach_symm hsym hm))
      · exact hmid
  · intro x hx b hb
    rcases List.mem_append.mp hx with hx | hx
    · exact List.mem_append_left _ (hcl _ hx _ hb)
    · have := h4 _ hx _ hb
      rwa [h1] at this

/-- Every component the loop of `largest_component` appends is a
duplicate-free reachability class rooted at some not-yet-seen node of the
remaining enumeration, and every enumerated node ends up in some emitted
component. -/
theorem compLoop_spec (g : Graph) (hsym : ∀ a b, b ∈ getNbrs g a → a ∈ getNbrs g b) :
    ∀ (todo seen : List Node) (acc : List (List Node)),
      (∀ x ∈ seen, ∀ b ∈ getNbrs g x, b ∈ seen) →
      (∀ x, x ∈ seen ↔ ∃ c ∈ acc, x ∈ c) →
      ∃ newComps, compLoop g todo seen acc = acc ++ newComps
        ∧ (∀ c ∈ newComps, c.Nodup ∧ ∃ rc ∈ todo, ∀ m, (m ∈ c ↔ Reach g rc m))
        ∧ (∀ n ∈ todo, ∃ c ∈ acc ++ newComps, n ∈ c) := by
  intro todo
  induction todo with
  | nil =>
      intro seen acc _ _
      exact ⟨[], by simp [compLoop], by simp, by simp⟩
  | cons node rest ih =>
      intro seen acc hcl hun
      by_cases hn : node ∈ seen
      · have hstep : compLoop g (node :: rest) seen acc = compLoop g rest seen acc := by
          simp only [compLoop, if_pos hn]
        rw [hstep]
        obtain ⟨nc, e1, e2, e3⟩ := ih seen acc hcl hun
        refine ⟨nc, e1, ?_, ?_⟩
        · intro c hc
          obtain ⟨hnd, rc, hrc, hiff⟩ := e2 c hc
          exact ⟨hnd, rc, List.mem_cons_of_mem _ hrc, hiff⟩
        · intro n hn'
          rcases List.mem_cons.mp hn' with rfl | hn'
          · obtain ⟨c, hc, hcn⟩ := (hun n).mp hn
            exact ⟨c, List.mem_append_left _ hc, hcn⟩
          · exact e3 n hn'
      · obtain ⟨delta, hd1, hd2, hdiff, hdnodup, hdclosed⟩ :=
          dfs_component g node seen hsym hcl hn
        have hstep : compLoop g (node :: rest) seen acc
            = compLoop g rest (seen ++ delta) (acc ++ [delta]) := by
          simp only [compLoop, if_neg hn]
          rw [hd1, hd2]
        rw [hstep]
        have hun' : ∀ x, x ∈ seen ++ delta ↔ ∃ c ∈ acc ++ [delta], x ∈ c := by
          intro x
          constructor
          · intro hx
            rcases List.mem_append.mp hx with hx | hx
            · obtain ⟨c, hc, hcx⟩ := (hun x).mp hx
              exact ⟨c, List.mem_append_left _ hc, hcx⟩
            · exact ⟨delta, List.mem_append_right _ (List.mem_singleton.mpr rfl), hx⟩
          · rintro ⟨c, hc, hcx⟩
            rcases List.mem_append.mp hc with hc | hc
            · exact List.mem_append_left _ ((hun x).mpr ⟨c, hc, hcx⟩)
            · rw [List.mem_singleton] at hc
              exact List.mem_append_right _ (hc ▸ hcx)
        obtain ⟨nc, e1, e2, e3⟩ := ih (seen ++ delta) (acc ++ [delta]) hdclosed hun'
        refine ⟨delta :: nc, ?_, ?_, ?_⟩
        · rw [e1, List.append_assoc]
          rfl
        · intro c hc
          rcases List.mem_cons.mp hc with rfl | hc
          · exact ⟨hdnodup, node, List.mem_cons_self _ _, hdiff⟩
          · obtain ⟨hnd, rc, hrc, hiff⟩ := e2 c hc
            exact ⟨hnd, rc, List.mem_cons_of_mem _ hrc, hiff⟩
        · intro n hn'
          rcases List.mem_cons.mp hn' with rfl | hn'
          · exact ⟨delta, List.mem_append_right _ (List.mem_cons_self _ _),
              (hdiff n).mpr Relation.ReflTransGen.refl⟩
          · obtain ⟨c, hc, hcn⟩ := e3 n hn'
            refine ⟨c, ?_, hcn⟩
            rcases List.mem_append.mp hc with hc | hc
            · rcases List.mem_append.mp hc with hc | hc
              · exact List.mem_append_left _ hc
              · rw [List.mem_singleton] at hc
                exact List.mem_append_right _ (hc ▸ List.mem_cons_self _ _)
            · exact List.mem_append_right _ (List.mem_cons_of_mem _ hc)


theorem sortComps_perm (cs : List (List Node)) : (sortComps cs).Perm cs :=
  List.mergeSort_perm cs _

theorem sortComps_sorted (cs : List (List Node)) :
    List.Sorted (fun a b : List Node => b.length ≤ a.length) (sortComps cs) := by
  have h := @List.sorted_mergeSort (List Node)
    (fun a b : List Node => decide (b.length ≤ a.length))
    (fun a b c h1 h2 => by simp at h1 h2 ⊢; omega)
    (fun a b => by simp; omega) cs
  simpa [List.Sorted, sortComps] using h

theorem sorted_head_len_max {hd c0 : List Node} {tl : List (List Node)}
    (h : List.Sorted (fun a b : List Node => b.length ≤ a.length) (hd :: tl))
    (hc : c0 ∈ hd :: tl) : c0.length ≤ hd.length := by
  rcases List.mem_cons.mp hc with rfl | hc
  · exact le_refl _
  · exact (List.pairwise_cons.mp h).1 c0 hc

/-- C6: for every enumeration of the node set and symmetric graph, the set
returned by `largest_component` is empty when the enumeration is empty, and
otherwise is one of the connected components of the graph (the reachability
class of some enumerated node) whose cardinality is at least that of the
component of every enumerated node. -/
theorem C6_largest_component (nodesEnum : List Node) (g : Graph)
    (hsym : ∀ a b, b ∈ getNbrs g a → a ∈ getNbrs g b) :
    (nodesEnum = [] → largest_component nodesEnum g = [])
    ∧ (nodesEnum ≠ [] → ∃ r ∈ nodesEnum,
        ∀ m, (m ∈ largest_component nodesEnum g ↔ Reach g r m))
    ∧ (∀ r ∈ nodesEnum, ∀ c : Finset Node, (∀ m, m ∈ c ↔ Reach g r m) →
        c.card ≤ (largest_component nodesEnum g).toFinset.card) := by
  obtain ⟨nc, e1, e2, e3⟩ := compLoop_spec g hsym nodesEnum [] []
    (by simp) (by simp)
  simp only [List.nil_append] at e1 e3
  have hLdef : largest_component nodesEnum g
      = match sortComps nc with
        | [] => []
        | c :: _ => c := by
    rw [largest_component, e1]
  refine ⟨?_, ?_, ?_⟩
  · rintro rfl
    have hnc : nc = [] := by
      have : compLoop g [] [] [] = ([] : List (List Node)) := rfl
      rw [this] at e1
      exact e1.symm
    rw [hLdef, hnc]
    simp [sortComps]
  · intro hne
    obtain ⟨n, rest, rfl⟩ := List.exists_cons_of_ne_nil hne
    obtain ⟨c0, hc0, -⟩ := e3 n (List.mem_cons_self _ _)
    have hncne : nc ≠ [] := fun h => by rw [h] at hc0; exact absurd hc0 (List.not_mem_nil _)
    match hs : sortComps nc with
    | [] =>
        exfalso
        have hp := sortComps_perm nc
        rw [hs] at hp
        exact hncne (List.Perm.nil_eq hp).symm
    | hd :: tl =>
        have hhd : hd ∈ nc := (sortComps_perm nc).subset (hs ▸ List.mem_cons_self _ _)
        obtain ⟨-, rc, hrc, hiff⟩ := e2 hd hhd
        refine ⟨rc, hrc, ?_⟩
        intro m
        rw [hLdef, hs]
        exact hiff m
  · intro r hr c hc
    obtain ⟨c0, hc0, hrc0⟩ := e3 r hr
    obtain ⟨hnd0, rc, -, hiff0⟩ := e2 c0 hc0
    have hreach : Reach g rc r := (hiff0 r).mp hrc0
    have hceq : c = c0.toFinset := by
      ext m
      rw [hc, List.mem_toFinset, hiff0]
      constructor
      · exact fun h => hreach.trans h
      · exact fun h => (reach_symm hsym hreach).trans h
    have hncne : nc ≠ [] := fun h => by rw [h] at hc0; exact absurd hc0 (List.not_mem_nil _)
    match hs : sortComps nc with
    | [] =>
        exfalso
        have := sortComps_perm nc
        rw [hs] at this
        exact hncne (List.Perm.nil_eq this).symm
    | hd :: tl =>
        have hhd : hd ∈ nc := (sortComps_perm nc).subset (hs ▸ List.mem_cons_self _ _)
        obtain ⟨hndh, -, -, -⟩ := e2 hd hhd
        have hlen : c0.length ≤ hd.length := by
          apply sorted_head_len_max (hs ▸ sortComps_sorted nc)
          exact hs ▸ (sortComps_perm nc).symm.subset hc0
        have hL : largest_component nodesEnum g = hd := by rw [hLdef, hs]
        rw [hceq, hL, List.toFinset_card_of_nodup hnd0, List.toFinset_card_of_nodup hndh]
        exact hlen

theorem C6_largest_component_witness :
    ((∀ a b : Node, b ∈ getNbrs [] a → a ∈ getNbrs [] b)
    ∧ (([((7 : ℚ), (7 : ℚ))] : List Node) = [] →
        largest_component [((7 : ℚ), (7 : ℚ))] [] = [])
    ∧ (([((7 : ℚ), (7 : ℚ))] : List Node) ≠ [] → ∃ r ∈ [((7 : ℚ), (7 : ℚ))],
        ∀ m, (m ∈ largest_component [((7 : ℚ), (7 : ℚ))] [] ↔ Reach [] r m))
    ∧ (∀ r ∈ [((7 : ℚ), (7 : ℚ))], ∀ c : Finset Node, (∀ m, m ∈ c ↔ Reach [] r m) →
        c.card ≤ (largest_component [((7 : ℚ), (7 : ℚ))] []).toFinset.card)) := by
  have hsym : ∀ a b : Node, b ∈ getNbrs [] a → a ∈ getNbrs [] b := by
    intro a b hb
    simp [getNbrs] at hb
  exact ⟨hsym, C6_largest_component [((7 : ℚ), (7 : ℚ))] [] hsym⟩

end Arknet
